import Mathlib

set_option maxRecDepth 100000

/-!
Shallow embedding of `src/server/encode.rs` from the `async-h1` repository:
a streaming HTTP/1.1 server response encoder.

Bytes are modelled as natural numbers (the values of `u8`), byte buffers as
`List Nat`.  The caller-supplied destination buffer of `poll_read` is a list
whose length is fixed by each writing operation (`writeAt` replaces a segment
in place).  The pollable body source (`http_types::Body` behind
`self.res.poll_read`) is modelled as the remaining byte stream together with a
schedule of poll outcomes; a scheduled `yieldN k` returns up to `k + 1` bytes
(a reader signals end-of-data, 0 bytes, only once its stream is exhausted),
`pend` models `Poll::Pending`, `err` models `Poll::Ready(Err(_))`.  Once the
schedule is exhausted the source is always ready and hands out as many bytes
as the capacity allows.  The date utility `fmt_http_date(SystemTime::now())`
is an external collaborator and enters the model as an explicit `date`
byte-string parameter of the first poll.
-/

namespace AH1

/-- `b'\r'` followed by `b'\n'`. -/
def crlf : List Nat := [13, 10]

/-- Byte sequence of a string literal (ASCII code points). -/
def strBytes (s : String) : List Nat := s.data.map Char.toNat

/-- Write `data` into `buf` starting at position `pos`, in place:
models `buf[pos..pos+data.len()].copy_from_slice(data)` (call sites are
in bounds, matching the Rust slice accesses). -/
def writeAt (buf : List Nat) (pos : Nat) (data : List Nat) : List Nat :=
  buf.take pos ++ data ++ buf.drop (pos + data.length)

/-- Decimal digits of `n`, least significant first; the first argument is
fuel, always instantiated with `n` itself (enough since `n / 10 < n`). -/
def decRev : Nat → Nat → List Nat
  | 0, _ => []
  | _ + 1, 0 => []
  | f + 1, n => (48 + n % 10) :: decRev f (n / 10)

/-- Rendering of `n` by `{}` (`Display`) on an integer: decimal digits. -/
def natToDec (n : Nat) : List Nat :=
  if n = 0 then [48] else (decRev n n).reverse

/-- One uppercase hexadecimal digit. -/
def hexDigit (n : Nat) : Nat := if n < 10 then 48 + n else 55 + n

/-- Hexadecimal digits of `n`, least significant first, fuel-first as in
`decRev`. -/
def hexRev : Nat → Nat → List Nat
  | 0, _ => []
  | _ + 1, 0 => []
  | f + 1, n => hexDigit (n % 16) :: hexRev f (n / 16)

/-- Rendering of `n` by `{:X}`: uppercase hex digits, no leading zeros,
`"0"` for zero. -/
def natToHexUpper (n : Nat) : List Nat :=
  if n = 0 then [48] else (hexRev n n).reverse

/-- One scheduled outcome of polling the body source. -/
inductive SourceStep where
  /-- The source is not ready: `Poll::Pending`. -/
  | pend : SourceStep
  /-- The source fails: `Poll::Ready(Err(_))`. -/
  | err : SourceStep
  /-- The source is ready and offers up to `k + 1` bytes of its remaining
  stream (at least one whenever data remains and the capacity allows). -/
  | yieldN (k : Nat) : SourceStep
deriving DecidableEq

/-- The pollable body byte source. -/
structure Source where
  /-- Bytes the source has not yet handed out. -/
  rem : List Nat
  /-- Remaining schedule; when exhausted the source is always ready and
  offers everything it has left. -/
  steps : List SourceStep
deriving DecidableEq

/-- Result of one poll of the body source. -/
inductive SourcePoll where
  | pending : SourcePoll
  | error : SourcePoll
  | bytes (bs : List Nat) : SourcePoll
deriving DecidableEq

/-- Poll the source with a read buffer of `cap` bytes. -/
def Source.poll (s : Source) (cap : Nat) : Source × SourcePoll :=
  match s.steps with
  | [] =>
    let n := min cap s.rem.length
    (⟨s.rem.drop n, []⟩, .bytes (s.rem.take n))
  | step :: rest =>
    match step with
    | .pend => (⟨s.rem, rest⟩, .pending)
    | .err => (⟨s.rem, rest⟩, .error)
    | .yieldN k =>
      let n := min (min (k + 1) cap) s.rem.length
      (⟨s.rem.drop n, rest⟩, .bytes (s.rem.take n))

/-- The response descriptor: status code, canonical reason phrase, the
optional known body length reported by `res.len()`, the ordered header
collection iterated by `res.iter()`, and the pollable body source. -/
structure Response where
  status : Nat
  reason : List Nat
  contentLen : Option Nat
  headers : List (List Nat × List (List Nat))
  body : Source
deriving DecidableEq

/-- The immutable part of a response: everything but the pollable body. -/
def Response.core (r : Response) : Nat × List Nat × Option Nat × List (List Nat × List (List Nat)) :=
  (r.status, r.reason, r.contentLen, r.headers)

/-- `io::Cursor<Vec<u8>>`: an owned buffer plus read position. -/
structure Cursor where
  data : List Nat
  pos : Nat
deriving DecidableEq

/-- `Read::poll_read` of `io::Cursor`: copies
`min(data.len() - pos, buf.len())` bytes and advances the position;
it never suspends and never fails. -/
def Cursor.read (c : Cursor) (cap : Nat) : Cursor × List Nat :=
  let n := min (c.data.length - c.pos) cap
  (⟨c.data, c.pos + n⟩, (c.data.drop c.pos).take n)

/-- The state of the encoding process (`EncoderState`). -/
inductive EncoderState where
  | start : EncoderState
  | head : EncoderState
  | body : EncoderState
  | uncomputedChunked : EncoderState
  | computedChunked : EncoderState
  | done : EncoderState
deriving DecidableEq

/-- The streaming HTTP encoder (`struct Encoder`). -/
structure Encoder where
  /-- HTTP headers to be sent. -/
  res : Response
  /-- The state of the encoding process. -/
  state : EncoderState
  /-- Bytes read in a call to `poll_read`. -/
  bytes_read : Nat
  /-- The serialized head section. -/
  head : List Nat
  /-- Bytes already emitted from the head section. -/
  head_bytes_read : Nat
  /-- Total body length (known-length encoder only). -/
  body_len : Nat
  /-- Bytes already emitted from the body (known-length encoder only). -/
  body_bytes_read : Nat
  /-- The staged chunk (chunked encoder only). -/
  chunk : Option Cursor
  /-- Whether the staged chunk is the last one (chunked encoder only). -/
  is_last : Bool
deriving DecidableEq

/-- `Encoder::encode`: a fresh encoder for one response. -/
def Encoder.encode (res : Response) : Encoder :=
  ⟨res, .start, 0, [], 0, 0, 0, none, false⟩

/-- Outcome of one `poll_read` call. -/
inductive FillResult where
  /-- `Poll::Pending`. -/
  | pending : FillResult
  /-- `Poll::Ready(Err(_))`. -/
  | error : FillResult
  /-- `Poll::Ready(Ok(n))`. -/
  | ready (n : Nat) : FillResult
  /-- `self.chunk.as_mut().unwrap()` on `None` (unreachable from reachable
  encoder configurations). -/
  | panicked : FillResult
deriving DecidableEq

/-- `Encoder::encode_computed_chunked`: a staged chunk is in memory; copy it
out through its cursor.  The Rust code passes the whole `buf` (not the unused
tail) to the cursor read; the cursor read never suspends and never fails, so
the `Pending`/`Err` arms of the Rust `match` are unreachable and are omitted
here. -/
def encode_computed_chunked (e : Encoder) (buf : List Nat) :
    Encoder × List Nat × FillResult :=
  match e.chunk with
  | none => (e, buf, .panicked)
  | some c =>
    let (c', out) := c.read buf.length
    let buf' := writeAt buf 0 out
    let e := { e with chunk := some c', bytes_read := e.bytes_read + out.length }
    let e :=
      if e.bytes_read = 0 then
        { e with state := if e.is_last then .done else .uncomputedChunked }
      else e
    (e, buf', .ready e.bytes_read)

/-- `Encoder::encode_uncomputed_chunked`: read one chunk's worth of data from
the body source, frame it, and either write it straight into `buf` or stage
it in `self.chunk` and fall through to chunk emission. -/
def encode_uncomputed_chunked (e : Encoder) (buf : List Nat) :
    Encoder × List Nat × FillResult :=
  let buffer_remaining := buf.length - e.bytes_read
  if buffer_remaining = 0 then (e, buf, .ready e.bytes_read)
  else
    match e.res.body.poll buffer_remaining with
    | (src, r) =>
      let e := { e with res := { e.res with body := src } }
      match r with
      | .pending =>
        if e.bytes_read = 0 then (e, buf, .pending) else (e, buf, .ready e.bytes_read)
      | .error => (e, buf, .error)
      | .bytes bs =>
        let chunk_length := bs.length
        let chunk_length_bytes := natToHexUpper chunk_length
        let chunk_length_bytes_len := chunk_length_bytes.length
        let total_chunk_size :=
          e.bytes_read + chunk_length_bytes_len + 2 + chunk_length + 2
        if total_chunk_size < buffer_remaining then
          let buf := writeAt buf e.bytes_read chunk_length_bytes
          let e := { e with bytes_read := e.bytes_read + chunk_length_bytes_len }
          let buf := writeAt buf e.bytes_read crlf
          let e := { e with bytes_read := e.bytes_read + 2 }
          let buf := writeAt buf e.bytes_read bs
          let e := { e with bytes_read := e.bytes_read + chunk_length }
          let buf := writeAt buf e.bytes_read crlf
          let e := { e with bytes_read := e.bytes_read + 2 }
          let e := if chunk_length = 0 then { e with state := .done } else e
          (e, buf, .ready e.bytes_read)
        else
          let chunk := List.replicate total_chunk_size 0
          let chunk := writeAt chunk 0 chunk_length_bytes
          let chunk := writeAt chunk chunk_length_bytes_len crlf
          let chunk := writeAt chunk (chunk_length_bytes_len + 2) bs
          let chunk := writeAt chunk (chunk_length_bytes_len + 2 + chunk_length) crlf
          let e := { e with bytes_read := e.bytes_read + 2 }
          let e := { e with state := .computedChunked,
                            chunk := some ⟨chunk, 0⟩,
                            is_last := chunk_length = 0 }
          encode_computed_chunked e buf

/-- The loop body of `Encoder::encode_body` (the Rust function tail-calls
itself until the buffer is full, the body is complete, or the source has
nothing).  The fuel argument only makes the recursion structural: every
recursive call strictly increases `bytes_read`, which stays bounded by
`buf.length`, so `buf.length + 1` fuel is never exhausted and the fuel-out
arm (returning like the full-buffer guard) is unreachable. -/
def encode_body_loop : Nat → Encoder → List Nat → Encoder × List Nat × FillResult
  | 0, e, buf => (e, buf, .ready e.bytes_read)
  | fuel + 1, e, buf =>
    if e.bytes_read = buf.length then (e, buf, .ready e.bytes_read)
    else
      let upper_bound := min (e.bytes_read + e.body_len - e.body_bytes_read) buf.length
      let cap := upper_bound - e.bytes_read
      match e.res.body.poll cap with
      | (src, r) =>
        let e := { e with res := { e.res with body := src } }
        match r with
        | .pending =>
          if e.bytes_read = 0 then (e, buf, .pending) else (e, buf, .ready e.bytes_read)
        | .error => (e, buf, .error)
        | .bytes bs =>
          let n := bs.length
          let buf := writeAt buf e.bytes_read bs
          let e := { e with body_bytes_read := e.body_bytes_read + n,
                            bytes_read := e.bytes_read + n }
          if e.body_len = e.body_bytes_read then
            ({ e with state := .done }, buf, .ready e.bytes_read)
          else if n = 0 then
            ({ e with state := .done }, buf, .ready e.bytes_read)
          else
            encode_body_loop fuel e buf

/-- `Encoder::encode_body`: stream a known-length body. -/
def encode_body (e : Encoder) (buf : List Nat) : Encoder × List Nat × FillResult :=
  encode_body_loop (buf.length + 1) e buf

/-- `Encoder::encode_head`: stream the serialized head, then hand over to the
body encoder picked by `res.len()`. -/
def encode_head (e : Encoder) (buf : List Nat) : Encoder × List Nat × FillResult :=
  let head_len := e.head.length
  let len := min (head_len - e.head_bytes_read) buf.length
  let buf := writeAt buf 0 ((e.head.drop e.head_bytes_read).take len)
  let e := { e with bytes_read := e.bytes_read + len,
                    head_bytes_read := e.head_bytes_read + len }
  if e.head_bytes_read = head_len then
    match e.res.contentLen with
    | some body_len =>
      let e := { e with body_len := body_len, state := .body }
      encode_body e buf
    | none =>
      let e := { e with state := .uncomputedChunked }
      encode_uncomputed_chunked e buf
  else
    (e, buf, .ready e.bytes_read)

/-- `Encoder::encode_start`: serialize the head section on the first poll
(writes to the `head` vector never fail), then stream it. -/
def encode_start (date : List Nat) (e : Encoder) (buf : List Nat) :
    Encoder × List Nat × FillResult :=
  let e := { e with state := .head }
  let hd := e.head ++ (strBytes "HTTP/1.1 " ++ natToDec e.res.status
      ++ strBytes " " ++ e.res.reason ++ crlf)
  let hd := hd ++ (match e.res.contentLen with
    | some len => strBytes "content-length: " ++ natToDec len ++ crlf
    | none => strBytes "transfer-encoding: chunked" ++ crlf)
  let hd := hd ++ (strBytes "date: " ++ date ++ crlf)
  let hd := hd ++ (e.res.headers.flatMap fun p =>
      p.2.flatMap fun v => p.1 ++ strBytes ": " ++ v ++ crlf)
  let hd := hd ++ crlf
  encode_head { e with head := hd } buf

/-- `<Encoder as Read>::poll_read`: reset the per-call byte counter, then
dispatch on the state. -/
def fill (date : List Nat) (e : Encoder) (buf : List Nat) :
    Encoder × List Nat × FillResult :=
  let e := { e with bytes_read := 0 }
  match e.state with
  | .start => encode_start date e buf
  | .head => encode_head e buf
  | .body => encode_body e buf
  | .uncomputedChunked => encode_uncomputed_chunked e buf
  | .computedChunked => encode_computed_chunked e buf
  | .done => (e, buf, .ready 0)

/-! ### Driving loops and observation helpers -/

/-- Thread `fill` through a list of per-call destination buffer sizes,
keeping only the final encoder. -/
def iterFill (date : List Nat) : List Nat → Encoder → Encoder
  | [], e => e
  | size :: rest, e => iterFill date rest (fill date e (List.replicate size 0)).1

/-- Drive the encoder with one zero-initialized destination buffer per listed
size, collecting what the consumer reads back: the first `k` bytes of the
buffer after a call reporting `Ok(k)` (truncated at the buffer length, as
`List.take` does).  Returns `some` concatenation when a call ends with the
encoder in the terminal state, `none` when the sizes run out first or a call
fails. -/
def runUntilDone (date : List Nat) : List Nat → Encoder → Option (List Nat)
  | [], _ => none
  | size :: rest, e =>
    match fill date e (List.replicate size 0) with
    | (e', buf', .ready k) =>
      match e'.state with
      | .done => some (buf'.take k)
      | _ =>
        match runUntilDone date rest e' with
        | some tl => some (buf'.take k ++ tl)
        | none => none
    | (e', _, .pending) => runUntilDone date rest e'
    | _ => none

/-! ### A standard chunked-transfer decoder (for the round-trip claim) -/

/-- Value of one hexadecimal digit byte, if it is one. -/
def hexVal (c : Nat) : Option Nat :=
  if 48 ≤ c ∧ c ≤ 57 then some (c - 48)
  else if 65 ≤ c ∧ c ≤ 70 then some (c - 55)
  else if 97 ≤ c ∧ c ≤ 102 then some (c - 87)
  else none

/-- Consume leading hexadecimal digits, returning their value and the rest
(fuel-first, instantiated with the input length). -/
def readHexLoop : Nat → Nat → List Nat → Nat × List Nat
  | 0, acc, input => (acc, input)
  | f + 1, acc, input =>
    match input with
    | [] => (acc, [])
    | c :: rest =>
      match hexVal c with
      | some v => readHexLoop f (16 * acc + v) rest
      | none => (acc, input)

/-- One chunk frame per iteration: a nonempty run of hex digits, CRLF, that
many payload bytes, CRLF; a zero size must be followed by CRLF and the end of
input (no trailers).  Fails on anything else. -/
def decodeChunkedLoop : Nat → List Nat → Option (List (List Nat))
  | 0, _ => none
  | f + 1, input =>
    match input with
    | [] => none
    | c :: _ =>
      match hexVal c with
      | none => none
      | some _ =>
        match readHexLoop input.length 0 input with
        | (n, rest) =>
          match rest with
          | 13 :: 10 :: rest2 =>
            if n = 0 then
              match rest2 with
              | [13, 10] => some []
              | _ => none
            else
              if n ≤ rest2.length then
                match rest2.drop n with
                | 13 :: 10 :: rest3 =>
                  (decodeChunkedLoop f rest3).map (rest2.take n :: ·)
                | _ => none
              else none
          | _ => none

/-- Decode a complete chunked-encoded body section; `some` of the payload
byte groups exactly when the section is well formed. -/
def decodeChunked (input : List Nat) : Option (List (List Nat)) :=
  decodeChunkedLoop (input.length + 1) input

/-! ### The head section as the specification words it -/

/-- The serialized head exactly as §4.1 of the specification lists it: status
line, then the length-mode line, then the date line, then one line per header
value in iteration order, then the blank terminator. -/
def headSpecBytes (res : Response) (date : List Nat) : List Nat :=
  strBytes "HTTP/1.1 " ++ natToDec res.status ++ strBytes " " ++ res.reason ++ crlf
    ++ (match res.contentLen with
        | some n => strBytes "content-length: " ++ natToDec n ++ crlf
        | none => strBytes "transfer-encoding: chunked" ++ crlf)
    ++ strBytes "date: " ++ date ++ crlf
    ++ (res.headers.flatMap fun p =>
        p.2.flatMap fun v => p.1 ++ strBytes ": " ++ v ++ crlf)
    ++ crlf

/-! ### Concrete scenarios used by several claims -/

/-- Length-mode invariant of the fixed-length path: the response keeps its
known length, no chunk is ever staged, and the state stays off the chunked
branch. -/
def FixedModeInv (L : Nat) (e : Encoder) : Prop :=
  e.res.contentLen = some L ∧ e.chunk = none ∧
  (e.state = .start ∨ e.state = .head ∨ e.state = .body ∨ e.state = .done)

/-- Length-mode invariant of the chunked path: no known length, and the
fixed-length Body state is never entered. -/
def ChunkedModeInv (e : Encoder) : Prop :=
  e.res.contentLen = none ∧ e.state ≠ .body

/-- Invariant tying a known-length run to its observable output: `out` is
the concatenation of everything the consumer has read so far, `res0` the
original response, `L` its declared length.  Each reachable state pins down
`out` and the encoder's cursors. -/
def RunFixedInv (date : List Nat) (res0 : Response) (L : Nat) (out : List Nat)
    (e : Encoder) : Prop :=
  e.res.core = res0.core ∧ e.chunk = none ∧
  ((e.state = .start ∧ out = [] ∧ e.head = [] ∧ e.head_bytes_read = 0 ∧
      e.body_bytes_read = 0 ∧ e.res.body.rem = res0.body.rem) ∨
   (e.state = .head ∧ e.head = headSpecBytes res0 date ∧
      e.head_bytes_read ≤ e.head.length ∧ out = e.head.take e.head_bytes_read ∧
      e.body_bytes_read = 0 ∧ e.res.body.rem = res0.body.rem) ∨
   (e.state = .body ∧ e.head = headSpecBytes res0 date ∧ e.body_len = L ∧
      e.body_bytes_read ≤ L ∧
      e.res.body.rem = res0.body.rem.drop e.body_bytes_read ∧
      out = headSpecBytes res0 date ++ res0.body.rem.take e.body_bytes_read) ∨
   (e.state = .done ∧
      out = headSpecBytes res0 date ++
        res0.body.rem.take (min L res0.body.rem.length)))

/-- A fixed date string for concrete runs (the date utility is external; its
output only flows into the date header line). -/
def dateX : List Nat := strBytes "X"

/-- A chunked response: status 200, no known length, no extra headers; the
source offers `"foo"` on its first poll (up to 3 bytes) and is exhausted
afterwards, so the fixed sequence of read results is `"foo"` then
end-of-data for every capacity of at least 3. -/
def resChunked : Response :=
  { status := 200, reason := strBytes "OK", contentLen := none, headers := [],
    body := { rem := strBytes "foo", steps := [.yieldN 2] } }

/-- A fixed-length response declaring 10 body bytes whose source can only
produce 4 (`"hell"`): the short-body scenario. -/
def resFixed : Response :=
  { status := 200, reason := strBytes "OK", contentLen := some 10, headers := [],
    body := { rem := strBytes "hell", steps := [] } }

/-- The encoder after one pull of the chunked scenario with a 57-byte
destination: the head (56 bytes) was written, the 1-byte chunk was staged
(framed size 6, staged size 62), and the cursor stopped at position 57, so
5 staged bytes are still pending in the chunk-emission state. -/
def e6 : Encoder := (fill dateX (Encoder.encode resChunked) (List.replicate 57 0)).1

/-- The encoder after the short-body run of `resFixed` completes in one pull
(head of 48 bytes plus 4 body bytes): terminal state with
`bytes_read = 52`. -/
def e8 : Encoder := (fill dateX (Encoder.encode resFixed) (List.replicate 100 0)).1

/-- A Body-state configuration whose source is already exhausted while the
declared length (10) has not been reached. -/
def eShort : Encoder :=
  { Encoder.encode { resFixed with body := ⟨[], []⟩ } with
      state := .body, body_len := 10 }

/-- A chunked response whose source suspends on its first poll and has
`"xy"` left to offer afterwards. -/
def resPendChunked : Response :=
  { status := 200, reason := strBytes "OK", contentLen := none, headers := [],
    body := { rem := strBytes "xy", steps := [.pend] } }

/-- A fixed-length (2-byte) variant of `resPendChunked`. -/
def resPendFixed : Response :=
  { resPendChunked with contentLen := some 2 }

/-- A Body-state configuration whose source suspends next. -/
def eBodyPend : Encoder :=
  { Encoder.encode resPendFixed with state := .body, body_len := 2 }

/-- A ComputingChunk-state configuration whose source suspends next. -/
def eUncPend : Encoder :=
  { Encoder.encode resPendChunked with state := .uncomputedChunked }

/-! ## Helper lemmas -/

/-- Writing nothing changes nothing. -/
theorem writeAt_nil (buf : List Nat) (p : Nat) : writeAt buf p [] = buf := by
  simp [writeAt]

/-- Chunk emission never reports `Pending` (the cursor read is synchronous). -/
theorem encode_computed_chunked_ne_pending (e : Encoder) (buf : List Nat) :
    (encode_computed_chunked e buf).2.2 ≠ .pending := by
  unfold encode_computed_chunked
  cases e.chunk <;> simp

/-- If the body loop reports `Pending`, the destination is untouched and no
byte had been accumulated in this call. -/
theorem encode_body_loop_pending (fuel : Nat) :
    ∀ (e e1 : Encoder) (buf b1 : List Nat),
      encode_body_loop fuel e buf = (e1, b1, .pending) →
      b1 = buf ∧ e.bytes_read = 0 := by
  induction fuel with
  | zero => intro e e1 buf b1 h; simp [encode_body_loop] at h
  | succ fuel ih =>
    intro e e1 buf b1 h
    simp only [encode_body_loop] at h
    split at h
    · simp at h
    · split at h
      · split at h
        next h0 =>
          simp only [Prod.mk.injEq] at h
          exact ⟨h.2.1.symm, h0⟩
        next => simp at h
      · simp at h
      · split at h
        · simp at h
        · split at h
          · simp at h
          · next hn =>
            have h0 := (ih _ _ _ _ h).2
            simp only at h0
            omega

/-- If the chunk-computation handler reports `Pending`, the destination is
untouched and no byte had been accumulated in this call. -/
theorem encode_uncomputed_chunked_pending (e e1 : Encoder) (buf b1 : List Nat)
    (h : encode_uncomputed_chunked e buf = (e1, b1, .pending)) :
    b1 = buf ∧ e.bytes_read = 0 := by
  simp only [encode_uncomputed_chunked] at h
  split at h
  · simp at h
  · split at h
    · split at h
      next h0 =>
        simp only [Prod.mk.injEq] at h
        exact ⟨h.2.1.symm, h0⟩
      next => simp at h
    · simp at h
    · split at h
      · simp at h
      · exact absurd (congrArg (fun t => t.2.2) h)
          (encode_computed_chunked_ne_pending _ _)

/-- If the head handler reports `Pending` on a call that starts with a zero
byte count, the destination is untouched. -/
theorem encode_head_pending (e e1 : Encoder) (buf b1 : List Nat)
    (h0 : e.bytes_read = 0) (h : encode_head e buf = (e1, b1, .pending)) :
    b1 = buf := by
  simp only [encode_head] at h
  split at h
  · split at h
    next body_len hsome =>
      have hb := encode_body_loop_pending _ _ _ _ _ h
      have hlen : min (e.head.length - e.head_bytes_read) buf.length = 0 := by
        have := hb.2
        simpa [h0] using this
      rw [hb.1, hlen]
      simp [writeAt_nil]
    next hnone =>
      have hb := encode_uncomputed_chunked_pending _ _ _ _ h
      have hlen : min (e.head.length - e.head_bytes_read) buf.length = 0 := by
        have := hb.2
        simpa [h0] using this
      rw [hb.1, hlen]
      simp [writeAt_nil]
  · simp at h

/-- Chunk emission does not touch the response, the serialized head, its
cursor, the body counters, or `is_last`, and moves the state only to
ComputingChunk or Done. -/
theorem encode_computed_chunked_frame (e : Encoder) (buf : List Nat) :
    (encode_computed_chunked e buf).1.res = e.res ∧
    (encode_computed_chunked e buf).1.head = e.head ∧
    (encode_computed_chunked e buf).1.head_bytes_read = e.head_bytes_read ∧
    (encode_computed_chunked e buf).1.body_len = e.body_len ∧
    (encode_computed_chunked e buf).1.body_bytes_read = e.body_bytes_read ∧
    (encode_computed_chunked e buf).1.is_last = e.is_last ∧
    ((encode_computed_chunked e buf).1.state = e.state ∨
      (encode_computed_chunked e buf).1.state = .done ∨
      (encode_computed_chunked e buf).1.state = .uncomputedChunked) := by
  simp only [encode_computed_chunked]
  split
  · simp
  · split
    · refine ⟨rfl, rfl, rfl, rfl, rfl, rfl, ?_⟩
      cases e.is_last <;> simp
    · exact ⟨rfl, rfl, rfl, rfl, rfl, rfl, Or.inl rfl⟩

/-- Chunk computation preserves the response core, the serialized head and
its cursor, and the body counters, and never moves the state to Body. -/
theorem encode_uncomputed_chunked_frame (e : Encoder) (buf : List Nat) :
    (encode_uncomputed_chunked e buf).1.res.core = e.res.core ∧
    (encode_uncomputed_chunked e buf).1.head = e.head ∧
    (encode_uncomputed_chunked e buf).1.head_bytes_read = e.head_bytes_read ∧
    (encode_uncomputed_chunked e buf).1.body_len = e.body_len ∧
    (encode_uncomputed_chunked e buf).1.body_bytes_read = e.body_bytes_read ∧
    ((encode_uncomputed_chunked e buf).1.state = e.state ∨
      (encode_uncomputed_chunked e buf).1.state = .done ∨
      (encode_uncomputed_chunked e buf).1.state = .uncomputedChunked ∨
      (encode_uncomputed_chunked e buf).1.state = .computedChunked) := by
  simp only [encode_uncomputed_chunked]
  split
  · simp
  · split
    · split
      · simp [Response.core]
      · simp [Response.core]
    · simp [Response.core]
    · split
      · split
        · simp [Response.core]
        · simp [Response.core]
      · refine ⟨?_, ?_, ?_, ?_, ?_, ?_⟩
        · rw [(encode_computed_chunked_frame _ _).1]
          simp [Response.core]
        · exact (encode_computed_chunked_frame _ _).2.1
        · exact (encode_computed_chunked_frame _ _).2.2.1
        · exact (encode_computed_chunked_frame _ _).2.2.2.1
        · exact (encode_computed_chunked_frame _ _).2.2.2.2.1
        · rcases (encode_computed_chunked_frame _ _).2.2.2.2.2.2 with hs | hs | hs
          · exact Or.inr (Or.inr (Or.inr hs))
          · exact Or.inr (Or.inl hs)
          · exact Or.inr (Or.inr (Or.inl hs))

/-- The body loop preserves the response core, the serialized head and its
cursor, the declared body length, the staged chunk, and `is_last`, and moves
the state only to Done. -/
theorem encode_body_loop_frame (fuel : Nat) :
    ∀ (e : Encoder) (buf : List Nat),
      (encode_body_loop fuel e buf).1.res.core = e.res.core ∧
      (encode_body_loop fuel e buf).1.head = e.head ∧
      (encode_body_loop fuel e buf).1.head_bytes_read = e.head_bytes_read ∧
      (encode_body_loop fuel e buf).1.body_len = e.body_len ∧
      (encode_body_loop fuel e buf).1.chunk = e.chunk ∧
      (encode_body_loop fuel e buf).1.is_last = e.is_last ∧
      ((encode_body_loop fuel e buf).1.state = e.state ∨
        (encode_body_loop fuel e buf).1.state = .done) := by
  induction fuel with
  | zero => intro e buf; simp [encode_body_loop]
  | succ fuel ih =>
    intro e buf
    simp only [encode_body_loop]
    split
    · simp
    · split
      · split
        · simp [Response.core]
        · simp [Response.core]
      · simp [Response.core]
      · split
        · simp [Response.core]
        · split
          · simp [Response.core]
          · refine ⟨?_, ?_, ?_, ?_, ?_, ?_, ?_⟩
            · exact (ih _ _).1
            · exact (ih _ _).2.1
            · exact (ih _ _).2.2.1
            · exact (ih _ _).2.2.2.1
            · exact (ih _ _).2.2.2.2.1
            · exact (ih _ _).2.2.2.2.2.1
            · exact (ih _ _).2.2.2.2.2.2

/-- The head handler never modifies the serialized head or the response
core; with a known content length it keeps the staged chunk and can only
move to Body or Done, and without one it never moves to Body. -/
theorem encode_head_frame (e : Encoder) (buf : List Nat) :
    (encode_head e buf).1.head = e.head ∧
    (encode_head e buf).1.res.core = e.res.core ∧
    (∀ L, e.res.contentLen = some L →
      (encode_head e buf).1.chunk = e.chunk ∧
      ((encode_head e buf).1.state = e.state ∨ (encode_head e buf).1.state = .body ∨
        (encode_head e buf).1.state = .done)) ∧
    (e.res.contentLen = none →
      ((encode_head e buf).1.state = e.state ∨ (encode_head e buf).1.state = .done ∨
        (encode_head e buf).1.state = .uncomputedChunked ∨
        (encode_head e buf).1.state = .computedChunked)) := by
  simp only [encode_head, encode_body]
  split
  · split
    next L heq =>
      refine ⟨(encode_body_loop_frame _ _ _).2.1, ?_, fun L' _ => ?_, fun hn => ?_⟩
      · rw [(encode_body_loop_frame _ _ _).1]
      · refine ⟨(encode_body_loop_frame _ _ _).2.2.2.2.1, ?_⟩
        rcases (encode_body_loop_frame _ _ _).2.2.2.2.2.2 with h | h
        · exact Or.inr (Or.inl h)
        · exact Or.inr (Or.inr h)
      · simp [heq] at hn
    next heq =>
      refine ⟨(encode_uncomputed_chunked_frame _ _).2.1, ?_, fun L' hL' => ?_, fun _ => ?_⟩
      · rw [(encode_uncomputed_chunked_frame _ _).1]
      · simp [heq] at hL'
      · rcases (encode_uncomputed_chunked_frame _ _).2.2.2.2.2 with h | h | h | h
        · exact Or.inr (Or.inr (Or.inl h))
        · exact Or.inr (Or.inl h)
        · exact Or.inr (Or.inr (Or.inl h))
        · exact Or.inr (Or.inr (Or.inr h))
  · exact ⟨rfl, by simp [Response.core], fun L _ => ⟨rfl, Or.inl rfl⟩, fun _ => Or.inl rfl⟩

/-- `contentLen` can be read off the response core. -/
theorem contentLen_of_core (r r' : Response) (h : r.core = r'.core) :
    r.contentLen = r'.contentLen :=
  congrArg (fun t => t.2.2.1) h

/-- The body loop preserves the fixed-length mode invariant. -/
theorem encode_body_loop_fixedInv (fuel : Nat) (e : Encoder) (buf : List Nat)
    (L : Nat) (h : FixedModeInv L e) :
    FixedModeInv L (encode_body_loop fuel e buf).1 := by
  refine ⟨(contentLen_of_core _ _ (encode_body_loop_frame fuel e buf).1).trans h.1,
    ((encode_body_loop_frame fuel e buf).2.2.2.2.1).trans h.2.1, ?_⟩
  rcases (encode_body_loop_frame fuel e buf).2.2.2.2.2.2 with hs | hs
  · rw [hs]; exact h.2.2
  · rw [hs]; exact Or.inr (Or.inr (Or.inr rfl))

/-- The head handler preserves the fixed-length mode invariant. -/
theorem encode_head_fixedInv (e : Encoder) (buf : List Nat) (L : Nat)
    (h : FixedModeInv L e) : FixedModeInv L (encode_head e buf).1 := by
  refine ⟨(contentLen_of_core _ _ (encode_head_frame e buf).2.1).trans h.1,
    ((encode_head_frame e buf).2.2.1 L h.1).1.trans h.2.1, ?_⟩
  rcases ((encode_head_frame e buf).2.2.1 L h.1).2 with hs | hs | hs
  · rw [hs]; exact h.2.2
  · rw [hs]; exact Or.inr (Or.inr (Or.inl rfl))
  · rw [hs]; exact Or.inr (Or.inr (Or.inr rfl))

/-- The first-pull handler preserves the fixed-length mode invariant. -/
theorem encode_start_fixedInv (date : List Nat) (e : Encoder) (buf : List Nat)
    (L : Nat) (hL : e.res.contentLen = some L) (hc : e.chunk = none) :
    FixedModeInv L (encode_start date e buf).1 := by
  simp only [encode_start]
  exact encode_head_fixedInv _ _ _ ⟨hL, hc, Or.inr (Or.inl rfl)⟩

/-- One pull preserves the fixed-length mode invariant. -/
theorem fill_fixedInv (date : List Nat) (e : Encoder) (buf : List Nat) (L : Nat)
    (h : FixedModeInv L e) : FixedModeInv L (fill date e buf).1 := by
  rcases h.2.2 with hs | hs | hs | hs <;> simp only [fill, hs]
  · exact encode_start_fixedInv date _ buf L h.1 h.2.1
  · exact encode_head_fixedInv _ buf L ⟨h.1, h.2.1, Or.inr (Or.inl rfl)⟩
  · exact encode_body_loop_fixedInv _ _ _ L ⟨h.1, h.2.1, Or.inr (Or.inr (Or.inl rfl))⟩
  · exact ⟨h.1, h.2.1, Or.inr (Or.inr (Or.inr rfl))⟩

/-- The head handler preserves the chunked mode invariant. -/
theorem encode_head_chunkedInv (e : Encoder) (buf : List Nat)
    (h : ChunkedModeInv e) : ChunkedModeInv (encode_head e buf).1 := by
  refine ⟨(contentLen_of_core _ _ (encode_head_frame e buf).2.1).trans h.1, ?_⟩
  rcases (encode_head_frame e buf).2.2.2 h.1 with hs | hs | hs | hs <;> rw [hs]
  · exact h.2
  · simp
  · simp
  · simp

/-- The first-pull handler preserves the chunked mode invariant. -/
theorem encode_start_chunkedInv (date : List Nat) (e : Encoder) (buf : List Nat)
    (hL : e.res.contentLen = none) : ChunkedModeInv (encode_start date e buf).1 := by
  simp only [encode_start]
  exact encode_head_chunkedInv _ _ ⟨hL, by simp⟩

/-- The chunk-computation handler preserves the chunked mode invariant. -/
theorem encode_uncomputed_chunkedInv (e : Encoder) (buf : List Nat)
    (h : ChunkedModeInv e) : ChunkedModeInv (encode_uncomputed_chunked e buf).1 := by
  refine ⟨(contentLen_of_core _ _ (encode_uncomputed_chunked_frame e buf).1).trans h.1, ?_⟩
  rcases (encode_uncomputed_chunked_frame e buf).2.2.2.2.2 with hs | hs | hs | hs <;> rw [hs]
  · exact h.2
  · simp
  · simp
  · simp

/-- The chunk-emission handler preserves the chunked mode invariant. -/
theorem encode_computed_chunkedInv (e : Encoder) (buf : List Nat)
    (h : ChunkedModeInv e) : ChunkedModeInv (encode_computed_chunked e buf).1 := by
  refine ⟨((encode_computed_chunked_frame e buf).1 ▸ h.1 : _), ?_⟩
  rcases (encode_computed_chunked_frame e buf).2.2.2.2.2.2 with hs | hs | hs <;> rw [hs]
  · exact h.2
  · simp
  · simp

/-- One pull preserves the chunked mode invariant. -/
theorem fill_chunkedInv (date : List Nat) (e : Encoder) (buf : List Nat)
    (h : ChunkedModeInv e) : ChunkedModeInv (fill date e buf).1 := by
  rcases hs : e.state with _ | _ | _ | _ | _ | _ <;> simp only [fill, hs]
  · exact encode_start_chunkedInv date _ buf h.1
  · exact encode_head_chunkedInv _ buf ⟨h.1, by simp [hs]⟩
  · exact absurd hs h.2
  · exact encode_uncomputed_chunkedInv _ buf ⟨h.1, by simp⟩
  · exact encode_computed_chunkedInv _ buf ⟨h.1, by simp⟩
  · exact ⟨h.1, by simp⟩

/-- Length of an in-bounds take, and the take and drop restated through it. -/
theorem take_drop_spec (l : List Nat) (M : Nat) (hM : M ≤ l.length) :
    (l.take M).length = M ∧ l.take M = l.take ((l.take M).length) ∧
    l.drop M = l.drop ((l.take M).length) := by
  have hlen : (l.take M).length = M := by rw [List.length_take]; omega
  exact ⟨hlen, by rw [hlen], by rw [hlen]⟩

/-- A successful source poll hands out exactly a prefix of the remaining
bytes, no more than the capacity, and returns zero bytes under a positive
capacity only at end-of-data. -/
theorem Source.poll_bytes (s : Source) (cap : Nat) (src : Source) (bs : List Nat)
    (h : s.poll cap = (src, .bytes bs)) :
    bs = s.rem.take bs.length ∧ src.rem = s.rem.drop bs.length ∧
    bs.length ≤ cap ∧ (bs.length = 0 → 1 ≤ cap → s.rem = []) := by
  rcases hsteps : s.steps with _ | ⟨step, rest⟩
  · simp only [Source.poll, hsteps, Prod.mk.injEq, SourcePoll.bytes.injEq] at h
    obtain ⟨hsrc, hbs⟩ := h
    subst hbs
    subst hsrc
    have hM : min cap s.rem.length ≤ s.rem.length := Nat.min_le_right _ _
    have hspec := take_drop_spec s.rem (min cap s.rem.length) hM
    refine ⟨hspec.2.1, hspec.2.2, ?_, fun h0 h1 => ?_⟩
    · rw [hspec.1]; omega
    · rw [hspec.1] at h0
      exact List.length_eq_zero.mp (by omega)
  · cases step with
    | pend => simp [Source.poll, hsteps] at h
    | err => simp [Source.poll, hsteps] at h
    | yieldN k =>
      simp only [Source.poll, hsteps, Prod.mk.injEq, SourcePoll.bytes.injEq] at h
      obtain ⟨hsrc, hbs⟩ := h
      subst hbs
      subst hsrc
      have hM : min (min (k + 1) cap) s.rem.length ≤ s.rem.length := Nat.min_le_right _ _
      have hspec := take_drop_spec s.rem (min (min (k + 1) cap) s.rem.length) hM
      refine ⟨hspec.2.1, hspec.2.2, ?_, fun h0 h1 => ?_⟩
      · rw [hspec.1]; omega
      · rw [hspec.1] at h0
        exact List.length_eq_zero.mp (by omega)

/-- A suspended source poll leaves the remaining bytes alone. -/
theorem Source.poll_pending (s : Source) (cap : Nat) (src : Source)
    (h : s.poll cap = (src, .pending)) : src.rem = s.rem := by
  unfold Source.poll at h
  split at h
  · simp at h
  · split at h
    · simp only [Prod.mk.injEq] at h
      rw [← h.1]
    · simp at h
    · simp at h

/-- A failed source poll leaves the remaining bytes alone. -/
theorem Source.poll_error (s : Source) (cap : Nat) (src : Source)
    (h : s.poll cap = (src, .error)) : src.rem = s.rem := by
  unfold Source.poll at h
  split at h
  · simp at h
  · split at h
    · simp at h
    · simp only [Prod.mk.injEq] at h
      rw [← h.1]
    · simp at h

/-- In-place writes preserve the buffer length when they stay in bounds. -/
theorem writeAt_length (buf : List Nat) (p : Nat) (data : List Nat)
    (h : p + data.length ≤ buf.length) :
    (writeAt buf p data).length = buf.length := by
  simp [writeAt, List.length_take, List.length_drop]
  omega

/-- An in-bounds in-place write leaves the prefix before it intact. -/
theorem writeAt_take_prefix (buf : List Nat) (p : Nat) (data : List Nat)
    (h : p ≤ buf.length) :
    (writeAt buf p data).take p = buf.take p := by
  have hlen : (buf.take p).length = p := by
    simp [List.length_take]; omega
  calc (writeAt buf p data).take p
      = (buf.take p ++ (data ++ buf.drop (p + data.length))).take p := by
        simp [writeAt]
    _ = buf.take p := List.take_left' hlen

/-- Reading back an in-bounds in-place write returns the written bytes after
the untouched prefix. -/
theorem writeAt_take_full (buf : List Nat) (p : Nat) (data : List Nat)
    (h : p + data.length ≤ buf.length) :
    (writeAt buf p data).take (p + data.length) = buf.take p ++ data := by
  have hlen : (buf.take p ++ data).length = p + data.length := by
    simp [List.length_take]; omega
  calc (writeAt buf p data).take (p + data.length)
      = ((buf.take p ++ data) ++ buf.drop (p + data.length)).take (p + data.length) := by
        simp [writeAt]
    _ = buf.take p ++ data := List.take_left' hlen

/-- The serialized head depends only on the response core. -/
theorem headSpecBytes_core_eq (r r' : Response) (date : List Nat)
    (h : r.core = r'.core) : headSpecBytes r date = headSpecBytes r' date := by
  unfold Response.core at h
  simp only [Prod.mk.injEq] at h
  unfold headSpecBytes
  rw [h.1, h.2.1, h.2.2.1, h.2.2.2]

/-- Taking `n` elements is the same as taking `min n (length)`. -/
theorem take_min_length (l : List Nat) (n : Nat) :
    l.take n = l.take (min n l.length) := by
  rcases Nat.le_total n l.length with h | h
  · rw [Nat.min_eq_left h]
  · rw [Nat.min_eq_right h, List.take_length, List.take_of_length_le h]

/-- Full specification of the body loop relative to the initial body stream
`S0`: the bytes it reports are exactly the next `d` stream bytes appended
behind the bytes already in the buffer, the counters advance together, the
counters stay within the declared length, and it either stays in its state
returning ready, reaches Done exactly at the declared length or at
end-of-data, suspends with no progress, or propagates a source error. -/
theorem encode_body_loop_fixed_spec (S0 : List Nat) (L : Nat) :
    ∀ (fuel : Nat) (e : Encoder) (buf : List Nat) (e1 : Encoder) (b1 : List Nat)
      (r : FillResult),
      e.body_len = L → e.body_bytes_read ≤ L →
      e.res.body.rem = S0.drop e.body_bytes_read →
      e.bytes_read ≤ buf.length →
      buf.length < e.bytes_read + fuel →
      encode_body_loop fuel e buf = (e1, b1, r) →
      b1.length = buf.length ∧
      ∃ d,
        e1.body_bytes_read = e.body_bytes_read + d ∧
        e1.body_bytes_read ≤ L ∧
        e1.res.body.rem = S0.drop e1.body_bytes_read ∧
        e1.bytes_read = e.bytes_read + d ∧
        e1.bytes_read ≤ buf.length ∧
        b1.take e1.bytes_read
          = buf.take e.bytes_read ++ (S0.drop e.body_bytes_read).take d ∧
        ((r = .ready e1.bytes_read ∧
            (e1.state = e.state ∨ (e1.state = .done ∧
              (e1.body_bytes_read = L ∨ e1.res.body.rem = [])))) ∨
          (r = .pending ∧ d = 0 ∧ e1.state = e.state) ∨ r = .error) := by
  intro fuel
  induction fuel with
  | zero =>
    intro e buf e1 b1 r hlen hle hrem hb hfuel h
    omega
  | succ fuel ih =>
    intro e buf e1 b1 r hlen hle hrem hb hfuel h
    simp only [encode_body_loop] at h
    split at h
    · next hguard =>
      simp only [Prod.mk.injEq] at h
      obtain ⟨he1, hb1, hr⟩ := h
      subst he1; subst hb1; subst hr
      refine ⟨rfl, 0, by omega, by omega, by simpa using hrem, by omega, by omega, by simp, ?_⟩
      exact Or.inl ⟨rfl, Or.inl rfl⟩
    · next hguard =>
      split at h
      · -- the source suspended
        next heq =>
        have hpoll : e.res.body.poll
            (min (e.bytes_read + e.body_len - e.body_bytes_read) buf.length - e.bytes_read)
            = ((e.res.body.poll (min (e.bytes_read + e.body_len - e.body_bytes_read)
                buf.length - e.bytes_read)).1, .pending) := Prod.ext rfl heq
        have hsrc := Source.poll_pending _ _ _ hpoll
        split at h
        · next h0 =>
          simp only [Prod.mk.injEq] at h
          obtain ⟨he1, hb1, hr⟩ := h
          subst he1; subst hb1; subst hr
          refine ⟨rfl, 0, by dsimp only; omega, by dsimp only; omega, ?_,
            by dsimp only; omega, by dsimp only; omega, by dsimp only; simp, ?_⟩
          · simpa [hsrc] using hrem
          · exact Or.inr (Or.inl ⟨rfl, rfl, rfl⟩)
        · next h0 =>
          simp only [Prod.mk.injEq] at h
          obtain ⟨he1, hb1, hr⟩ := h
          subst he1; subst hb1; subst hr
          refine ⟨rfl, 0, by dsimp only; omega, by dsimp only; omega, ?_,
            by dsimp only; omega, by dsimp only; omega, by dsimp only; simp, ?_⟩
          · simpa [hsrc] using hrem
          · exact Or.inl ⟨rfl, Or.inl rfl⟩
      · -- the source failed
        next heq =>
        have hpoll : e.res.body.poll
            (min (e.bytes_read + e.body_len - e.body_bytes_read) buf.length - e.bytes_read)
            = ((e.res.body.poll (min (e.bytes_read + e.body_len - e.body_bytes_read)
                buf.length - e.bytes_read)).1, .error) := Prod.ext rfl heq
        have hsrc := Source.poll_error _ _ _ hpoll
        simp only [Prod.mk.injEq] at h
        obtain ⟨he1, hb1, hr⟩ := h
        subst he1; subst hb1; subst hr
        refine ⟨rfl, 0, by dsimp only; omega, by dsimp only; omega, ?_,
          by dsimp only; omega, by dsimp only; omega, by dsimp only; simp, ?_⟩
        · simpa [hsrc] using hrem
        · exact Or.inr (Or.inr rfl)
      · -- the source delivered bytes
        next bs heq =>
        have hpoll : e.res.body.poll
            (min (e.bytes_read + e.body_len - e.body_bytes_read) buf.length - e.bytes_read)
            = ((e.res.body.poll (min (e.bytes_read + e.body_len - e.body_bytes_read)
                buf.length - e.bytes_read)).1, .bytes bs) := Prod.ext rfl heq
        obtain ⟨hbs, hsrc, hcap, heof⟩ := Source.poll_bytes _ _ _ _ hpoll
        have hblt : e.bytes_read < buf.length := by omega
        have hinb : e.bytes_read + bs.length ≤ buf.length := by omega
        have hbsrem : bs = (S0.drop e.body_bytes_read).take bs.length := by
          conv_lhs => rw [hbs]
          rw [hrem]
        have hsrcrem : (e.res.body.poll (min (e.bytes_read + e.body_len -
            e.body_bytes_read) buf.length - e.bytes_read)).1.rem
            = S0.drop (e.body_bytes_read + bs.length) := by
          rw [hsrc, hrem, List.drop_drop]
        have hdlen : bs.length ≤ L - e.body_bytes_read := by omega
        split at h
        · -- the declared length is reached
          next hdone =>
          simp only [Prod.mk.injEq] at h
          obtain ⟨he1, hb1, hr⟩ := h
          subst he1; subst hb1; subst hr
          refine ⟨writeAt_length _ _ _ hinb, bs.length, rfl, by dsimp only; omega, ?_,
            rfl, by dsimp only; omega, ?_, ?_⟩
          · exact hsrcrem
          · rw [writeAt_take_full _ _ _ hinb, ← hbsrem]
          · exact Or.inl ⟨rfl, Or.inr ⟨rfl, Or.inl (by dsimp only; omega)⟩⟩
        · split at h
          · -- a zero-byte read before the declared length: end-of-data
            next hdone hn0 =>
            have hcapge : 1 ≤ min (e.bytes_read + e.body_len - e.body_bytes_read)
                buf.length - e.bytes_read := by omega
            have hremnil := heof hn0 hcapge
            have hbsnil : bs = [] := List.length_eq_zero.mp hn0
            simp only [Prod.mk.injEq] at h
            obtain ⟨he1, hb1, hr⟩ := h
            subst he1; subst hb1; subst hr
            refine ⟨by rw [hbsnil, writeAt_nil], 0, by dsimp only; omega,
              by dsimp only; omega, ?_, by dsimp only; omega,
              by dsimp only; omega, by dsimp only; simp [hbsnil, writeAt_nil], ?_⟩
            · rw [hsrcrem, hn0]
            · refine Or.inl ⟨by simp [hn0], Or.inr ⟨rfl, Or.inr ?_⟩⟩
              rw [hsrcrem, hn0, Nat.add_zero, ← hrem, hremnil]
          · -- progress was made: loop again
            next hdone hn0 =>
            have hge1 : 1 ≤ bs.length := by omega
            obtain ⟨hlen1, d', hem', hle', hrem', hby', hbo', htake', hres'⟩ :=
              ih _ (writeAt buf e.bytes_read bs) e1 b1 r (by simpa using hlen)
                (by simpa using (by omega : e.body_bytes_read + bs.length ≤ L))
                (by simpa using hsrcrem)
                (by simpa using (by rw [writeAt_length _ _ _ hinb]; omega :
                  e.bytes_read + bs.length ≤ (writeAt buf e.bytes_read bs).length))
                (by dsimp only; rw [writeAt_length _ _ _ hinb]; omega) h
            dsimp only at hem' hby' htake' hres'
            rw [writeAt_length _ _ _ hinb] at hlen1 hbo'
            refine ⟨hlen1, bs.length + d', by rw [hem']; omega, hle', ?_, by rw [hby']; omega,
              hbo', ?_, ?_⟩
            · rw [hrem', hem', Nat.add_assoc]
            · rw [htake', writeAt_take_full _ _ _ hinb, List.take_add, List.drop_drop,
                List.append_assoc, ← hbsrem]
            · rcases hres' with ⟨hr, hst⟩ | ⟨hr, hd0, hst⟩ | hr
              · refine Or.inl ⟨hr, ?_⟩
                rcases hst with hst | ⟨hst, hcond⟩
                · exact Or.inl (by simpa using hst)
                · exact Or.inr ⟨hst, hcond⟩
              · subst hr
                have h0 := (encode_body_loop_pending fuel _ _ _ _ h).2
                dsimp only at h0
                omega
              · exact Or.inr (Or.inr hr)

/-- Equation form of `encode_body_loop_frame`. -/
theorem encode_body_loop_frame_eq (fuel : Nat) (e : Encoder) (buf : List Nat)
    (e1 : Encoder) (b1 : List Nat) (r : FillResult)
    (h : encode_body_loop fuel e buf = (e1, b1, r)) :
    e1.res.core = e.res.core ∧ e1.head = e.head ∧
    e1.head_bytes_read = e.head_bytes_read ∧ e1.body_len = e.body_len ∧
    e1.chunk = e.chunk ∧ e1.is_last = e.is_last ∧
    (e1.state = e.state ∨ e1.state = .done) := by
  have hf := encode_body_loop_frame fuel e buf
  rw [h] at hf
  exact hf

/-- The response core determines each of its four fields. -/
theorem core_fields (r r' : Response) (h : r.core = r'.core) :
    r.status = r'.status ∧ r.reason = r'.reason ∧ r.contentLen = r'.contentLen ∧
    r.headers = r'.headers := by
  unfold Response.core at h
  simp only [Prod.mk.injEq] at h
  exact h

/-- One head-state pull of a known-length encoder preserves the run
invariant, extending the observable output by exactly what the pull
reports. -/
theorem encode_head_fixed_step (date : List Nat) (res0 : Response) (L : Nat)
    (out : List Nat) (e : Encoder) (buf : List Nat) (e1 : Encoder) (b1 : List Nat)
    (r : FillResult)
    (hcore : e.res.core = res0.core) (hL : res0.contentLen = some L)
    (hchunk : e.chunk = none) (hstate : e.state = .head)
    (hH : e.head = headSpecBytes res0 date)
    (hhbr : e.head_bytes_read ≤ e.head.length)
    (hout : out = e.head.take e.head_bytes_read)
    (hem : e.body_bytes_read = 0) (hrem : e.res.body.rem = res0.body.rem)
    (hb : e.bytes_read = 0)
    (heq : encode_head e buf = (e1, b1, r)) :
    (∃ k, r = .ready k ∧ RunFixedInv date res0 L (out ++ b1.take k) e1) ∨
    (r = .pending ∧ RunFixedInv date res0 L out e1) ∨ r = .error := by
  have hLe : e.res.contentLen = some L := by
    rw [(core_fields _ _ hcore).2.2.1]; exact hL
  have hdata : ((e.head.drop e.head_bytes_read).take
      (min (e.head.length - e.head_bytes_read) buf.length)).length
      = min (e.head.length - e.head_bytes_read) buf.length := by
    rw [List.length_take, List.length_drop]
    omega
  have hcbuf : min (e.head.length - e.head_bytes_read) buf.length ≤ buf.length :=
    Nat.min_le_right _ _
  have hbuf2len : (writeAt buf 0 ((e.head.drop e.head_bytes_read).take
      (min (e.head.length - e.head_bytes_read) buf.length))).length = buf.length := by
    apply writeAt_length
    omega
  have hbuf2take : (writeAt buf 0 ((e.head.drop e.head_bytes_read).take
      (min (e.head.length - e.head_bytes_read) buf.length))).take
      (min (e.head.length - e.head_bytes_read) buf.length)
      = (e.head.drop e.head_bytes_read).take
        (min (e.head.length - e.head_bytes_read) buf.length) := by
    have h := writeAt_take_full buf 0 ((e.head.drop e.head_bytes_read).take
      (min (e.head.length - e.head_bytes_read) buf.length)) (by omega)
    simpa [hdata] using h
  have htakeadd : e.head.take e.head_bytes_read
      ++ (e.head.drop e.head_bytes_read).take
        (min (e.head.length - e.head_bytes_read) buf.length)
      = e.head.take (e.head_bytes_read
          + min (e.head.length - e.head_bytes_read) buf.length) :=
    (List.take_add _ _ _).symm
  simp only [encode_head, encode_body] at heq
  split at heq
  · next hdone =>
    split at heq
    · next bl hbl =>
      have hblL : bl = L := by
        rw [hLe] at hbl
        exact (Option.some.inj hbl).symm
      obtain ⟨hlen1, d, hem1, hle1, hrem1, hby1, hbo1, htake1, hres1⟩ :=
        encode_body_loop_fixed_spec res0.body.rem L _ _ _ e1 b1 r
          (by dsimp only; exact hblL)
          (by dsimp only; omega)
          (by dsimp only; rw [hrem, hem, List.drop_zero])
          (by dsimp only; rw [hbuf2len]; omega)
          (by dsimp only; omega)
          heq
      dsimp only at hdone hem1 hby1 hbo1 htake1 hres1
      have hf := encode_body_loop_frame_eq _ _ _ _ _ _ heq
      dsimp only at hf
      have hcore1 : e1.res.core = res0.core := by rw [hf.1]; exact hcore
      have hchunk1 : e1.chunk = none := by rw [hf.2.2.2.2.1]; exact hchunk
      have hhead1 : e1.head = headSpecBytes res0 date := by rw [hf.2.1]; exact hH
      have hlen2 : e1.body_len = L := by rw [hf.2.2.2.1]; exact hblL
      have houtpiece : out ++ b1.take e1.bytes_read
          = headSpecBytes res0 date ++ res0.body.rem.take d := by
        rw [htake1, hout, hem, List.drop_zero, hb]
        rw [← List.append_assoc]
        rw [Nat.zero_add, hbuf2take, htakeadd, hdone, List.take_length, hH]
      rcases hres1 with ⟨hready, hst1⟩ | ⟨hpend, hd0, hst1⟩ | herr
      · refine Or.inl ⟨e1.bytes_read, hready, hcore1, hchunk1, ?_⟩
        rcases hst1 with hst1 | ⟨hst1, hcond⟩
        · refine Or.inr (Or.inr (Or.inl ⟨hst1, hhead1, hlen2, hle1, hrem1, ?_⟩))
          rw [houtpiece, hem1, hem, Nat.zero_add]
        · refine Or.inr (Or.inr (Or.inr ⟨hst1, ?_⟩))
          rw [houtpiece]
          rcases hcond with hcond | hcond
          · have hdL : d = L := by omega
            rw [hdL, ← take_min_length]
          · rw [hem1, hem, Nat.zero_add] at hrem1
            rw [hrem1] at hcond
            have hlen3 : res0.body.rem.length ≤ d := List.drop_eq_nil_iff.mp hcond
            rw [List.take_of_length_le hlen3,
              Nat.min_eq_right (by omega), List.take_length]
      · have h0 := (encode_body_loop_pending _ _ _ _ _ (hpend ▸ heq)).2
        dsimp only at h0
        have hc0 : min (e.head.length - e.head_bytes_read) buf.length = 0 := by omega
        refine Or.inr (Or.inl ⟨hpend, hcore1, hchunk1, ?_⟩)
        have hst2 : e1.state = .body := hst1
        refine Or.inr (Or.inr (Or.inl ⟨hst2, hhead1, hlen2, hle1, hrem1, ?_⟩))
        rw [hout, hem1, hem, hd0, Nat.zero_add]
        have hbrlen : e.head_bytes_read = e.head.length := by omega
        rw [hbrlen, List.take_length, hH]
        simp
      · exact Or.inr (Or.inr herr)
    · next hbl =>
      rw [hLe] at hbl
      cases hbl
  · next hdone =>
    simp only [Prod.mk.injEq] at heq
    obtain ⟨he1, hb1, hr⟩ := heq
    subst he1; subst hb1; subst hr
    refine Or.inl ⟨_, rfl, hcore, hchunk, Or.inr (Or.inl ⟨hstate, hH, ?_, ?_, hem, hrem⟩)⟩
    · dsimp only
      omega
    · dsimp only
      rw [hout, hb, Nat.zero_add, hbuf2take, htakeadd]

/-- One pull preserves the run invariant of a known-length response,
extending the observable output by exactly the bytes the pull reports. -/
theorem fill_runFixedInv (date : List Nat) (res0 : Response) (L : Nat)
    (out : List Nat) (e e1 : Encoder) (buf b1 : List Nat) (r : FillResult)
    (hL : res0.contentLen = some L)
    (hInv : RunFixedInv date res0 L out e)
    (heq : fill date e buf = (e1, b1, r)) :
    (∃ k, r = .ready k ∧ RunFixedInv date res0 L (out ++ b1.take k) e1) ∨
    (r = .pending ∧ RunFixedInv date res0 L out e1) ∨ r = .error := by
  obtain ⟨hcore, hchunk, hcases⟩ := hInv
  rcases hcases with ⟨hst, hout, hhead, hhbr, hem, hrem⟩ |
    ⟨hst, hH, hhbr, hout, hem, hrem⟩ |
    ⟨hst, hH, hlen, hle, hrem, hout⟩ | ⟨hst, hout⟩
  · -- the first pull: build the head, then stream it
    simp only [fill, hst, encode_start] at heq
    refine encode_head_fixed_step date res0 L out _ buf e1 b1 r ?_ hL ?_ ?_ ?_ ?_ ?_
      ?_ ?_ ?_ heq
    · exact hcore
    · exact hchunk
    · rfl
    · dsimp only
      obtain ⟨h1, h2, h3, h4⟩ := core_fields _ _ hcore
      rw [hhead, h1, h2, h3, h4]
      cases hc : res0.contentLen <;> simp [headSpecBytes, hc, List.append_assoc]
    · dsimp only; omega
    · dsimp only
      rw [hout, hhbr]
      simp
    · exact hem
    · exact hrem
    · rfl
  · -- streaming the head
    simp only [fill, hst] at heq
    refine encode_head_fixed_step date res0 L out _ buf e1 b1 r ?_ hL ?_ ?_ ?_ ?_ ?_
      ?_ ?_ ?_ heq
    · exact hcore
    · exact hchunk
    · rfl
    · exact hH
    · exact hhbr
    · exact hout
    · exact hem
    · exact hrem
    · rfl
  · -- streaming the body
    simp only [fill, hst, encode_body] at heq
    obtain ⟨hlen1, d, hem1, hle1, hrem1, hby1, hbo1, htake1, hres1⟩ :=
      encode_body_loop_fixed_spec res0.body.rem L _ _ _ e1 b1 r
        (by dsimp only; exact hlen)
        (by dsimp only; exact hle)
        (by dsimp only; exact hrem)
        (by dsimp only; omega)
        (by dsimp only; omega)
        heq
    dsimp only at hem1 hby1 htake1 hres1
    simp only [List.take_zero, List.nil_append] at htake1
    have hf := encode_body_loop_frame_eq _ _ _ _ _ _ heq
    dsimp only at hf
    have hcore1 : e1.res.core = res0.core := by rw [hf.1]; exact hcore
    have hchunk1 : e1.chunk = none := by rw [hf.2.2.2.2.1]; exact hchunk
    have hhead1 : e1.head = headSpecBytes res0 date := by rw [hf.2.1]; exact hH
    have hlen2 : e1.body_len = L := by rw [hf.2.2.2.1]; exact hlen
    have houtpiece : out ++ b1.take e1.bytes_read
        = headSpecBytes res0 date
          ++ res0.body.rem.take (e.body_bytes_read + d) := by
      rw [htake1, hout, List.append_assoc, ← List.take_add]
    rcases hres1 with ⟨hready, hst1⟩ | ⟨hpend, hd0, hst1⟩ | herr
    · refine Or.inl ⟨e1.bytes_read, hready, hcore1, hchunk1, ?_⟩
      rcases hst1 with hst1 | ⟨hst1, hcond⟩
      · refine Or.inr (Or.inr (Or.inl ⟨hst1, hhead1, hlen2, hle1, hrem1, ?_⟩))
        rw [houtpiece, hem1]
      · refine Or.inr (Or.inr (Or.inr ⟨hst1, ?_⟩))
        rw [houtpiece]
        rcases hcond with hcond | hcond
        · have hdL : e.body_bytes_read + d = L := by omega
          rw [hdL, ← take_min_length]
        · rw [hem1] at hrem1
          rw [hrem1] at hcond
          have hlen3 : res0.body.rem.length ≤ e.body_bytes_read + d :=
            List.drop_eq_nil_iff.mp hcond
          rw [List.take_of_length_le hlen3,
            Nat.min_eq_right (by omega), List.take_length]
    · refine Or.inr (Or.inl ⟨hpend, hcore1, hchunk1,
        Or.inr (Or.inr (Or.inl ⟨hst1, hhead1, hlen2, hle1, hrem1, ?_⟩))⟩)
      rw [hout, hem1, hd0, Nat.add_zero]
    · exact Or.inr (Or.inr herr)
  · -- already terminal
    simp only [fill, hst, Prod.mk.injEq] at heq
    obtain ⟨he1, hb1, hr⟩ := heq
    subst he1; subst hb1; subst hr
    refine Or.inl ⟨0, rfl, hcore, hchunk, Or.inr (Or.inr (Or.inr ⟨rfl, ?_⟩))⟩
    rw [List.take_zero, List.append_nil]
    exact hout

/-- A terminal encoder satisfying the run invariant has produced exactly the
head followed by `min`-truncated body bytes. -/
theorem runFixedInv_done (date : List Nat) (res0 : Response) (L : Nat)
    (out : List Nat) (e : Encoder) (h : RunFixedInv date res0 L out e)
    (hst : e.state = .done) :
    out = headSpecBytes res0 date
      ++ res0.body.rem.take (min L res0.body.rem.length) := by
  obtain ⟨_, _, hc⟩ := h
  rcases hc with ⟨h1, _⟩ | ⟨h1, _⟩ | ⟨h1, _⟩ | ⟨_, h2⟩
  · rw [hst] at h1; cases h1
  · rw [hst] at h1; cases h1
  · rw [hst] at h1; cases h1
  · exact h2

/-- Driving a known-length encoder that satisfies the run invariant to Done
accounts for every observable byte. -/
theorem runUntilDone_fixed (date : List Nat) (res0 : Response) (L : Nat)
    (hL : res0.contentLen = some L) :
    ∀ (sizes : List Nat) (e : Encoder) (out tl : List Nat),
      RunFixedInv date res0 L out e →
      runUntilDone date sizes e = some tl →
      out ++ tl = headSpecBytes res0 date
        ++ res0.body.rem.take (min L res0.body.rem.length) := by
  intro sizes
  induction sizes with
  | nil => intro e out tl hInv hrun; simp [runUntilDone] at hrun
  | cons size rest ih =>
    intro e out tl hInv hrun
    simp only [runUntilDone] at hrun
    split at hrun
    · next e' buf' k heq =>
      have hstep := fill_runFixedInv date res0 L out e e' (List.replicate size 0)
        buf' (.ready k) hL hInv heq
      rcases hstep with ⟨k', hk', hInv'⟩ | ⟨hpend, _⟩ | herr
      · have hkk : k' = k := FillResult.ready.inj hk'.symm
        subst hkk
        split at hrun
        · next hstdone =>
          have htl : tl = buf'.take k' := (Option.some.inj hrun).symm
          rw [htl]
          exact runFixedInv_done date res0 L _ e' hInv' hstdone
        · next hstne =>
          split at hrun
          · next tl' hrec =>
            have htl : tl = buf'.take k' ++ tl' := (Option.some.inj hrun).symm
            rw [htl, ← List.append_assoc]
            exact ih e' (out ++ buf'.take k') tl' hInv' hrec
          · cases hrun
      · cases hpend
      · cases herr
    · next e' buf' heq =>
      have hstep := fill_runFixedInv date res0 L out e e' (List.replicate size 0)
        buf' .pending hL hInv heq
      rcases hstep with ⟨k', hk', _⟩ | ⟨_, hInv'⟩ | herr
      · cases hk'
      · exact ih e' out tl hInv' hrun
      · cases herr
    · cases hrun

/-- Iterated pulls preserve the fixed-length mode invariant. -/
theorem iterFill_fixedInv (date : List Nat) (sizes : List Nat) :
    ∀ (e : Encoder) (L : Nat), FixedModeInv L e →
      FixedModeInv L (iterFill date sizes e) := by
  induction sizes with
  | nil => intro e L h; exact h
  | cons size rest ih =>
    intro e L h
    exact ih _ L (fill_fixedInv date e (List.replicate size 0) L h)

/-- Iterated pulls preserve the chunked mode invariant. -/
theorem iterFill_chunkedInv (date : List Nat) (sizes : List Nat) :
    ∀ e : Encoder, ChunkedModeInv e → ChunkedModeInv (iterFill date sizes e) := by
  induction sizes with
  | nil => intro e h; exact h
  | cons size rest ih =>
    intro e h
    exact ih _ (fill_chunkedInv date e (List.replicate size 0) h)

/-! ## Claim theorems -/

/-- C9: the claim that a call reporting `Ok(k)` wrote exactly `k` bytes, with
`k` never exceeding the destination length, fails on the code: on the chunked
scenario with a 60-byte destination, the first pull stages the chunk (adding
2 to `bytes_read` without writing) and then lets the cursor write over the
whole buffer, reporting `Ok(118)` for a 60-byte buffer. -/
theorem claim_c9_count_overrun :
    (fill dateX (Encoder.encode resChunked) (List.replicate 60 0)).2.2
        = .ready 118 ∧
    (fill dateX (Encoder.encode resChunked) (List.replicate 60 0)).2.1.length = 60 ∧
    60 < 118 := by
  refine ⟨by decide, by decide, by decide⟩

/-- C3: on the chunked scenario with a 70-byte destination, the head leaves 14
bytes of space and the framed chunk `"3\r\nfoo\r\n"` is 8 bytes, so by the
claim it fits and is written directly; instead the code compares
`bytes_read + framed size < remaining` (64 < 14 fails), stages a buffer of
`bytes_read + framed size = 64` bytes — the frame followed by 56 zero bytes,
not "exactly the framed chunk and nothing more" — and reports 122 bytes. -/
theorem claim_c3_staged_padding :
    (fill dateX (Encoder.encode resChunked) (List.replicate 70 0)).1.chunk
        = some ⟨strBytes "3\r\nfoo\r\n" ++ List.replicate 56 0, 64⟩ ∧
    (strBytes "3\r\nfoo\r\n").length ≤ 70 - 56 ∧
    (fill dateX (Encoder.encode resChunked) (List.replicate 70 0)).2.2
        = .ready 122 := by
  refine ⟨by decide, by decide, by decide⟩

/-- C1: buffer-size independence fails on the code.  For the same chunked
response and the same sequence of source read results (`"foo"`, then
end-of-data), driving with 121-byte destinations and driving with 60-byte
destinations both reach Done but produce different concatenations: the small
run loses the head bytes (the staged cursor writes from offset 0) and emits
padding zeros from the oversized staged buffer. -/
theorem claim_c1_size_dependent :
    (runUntilDone dateX [121, 121] (Encoder.encode resChunked)).isSome ∧
    (runUntilDone dateX [60, 60, 60, 60] (Encoder.encode resChunked)).isSome ∧
    runUntilDone dateX [121, 121] (Encoder.encode resChunked)
      ≠ runUntilDone dateX [60, 60, 60, 60] (Encoder.encode resChunked) := by
  refine ⟨by decide, by decide, by decide⟩

/-- C2: the chunk round-trip fails on the code.  With large destinations the
emitted stream after the head decodes to exactly the source's byte groups,
but with 60-byte destinations the bytes after the head position fail a
standard chunked decoder, and the emitted stream does not even start with the
head (the staged cursor overwrote it). -/
theorem claim_c2_roundtrip_broken :
    decodeChunked (((runUntilDone dateX [121, 121]
        (Encoder.encode resChunked)).getD []).drop
        (headSpecBytes resChunked dateX).length) = some [strBytes "foo"] ∧
    decodeChunked (((runUntilDone dateX [60, 60, 60, 60]
        (Encoder.encode resChunked)).getD []).drop
        (headSpecBytes resChunked dateX).length) = none ∧
    ((runUntilDone dateX [60, 60, 60, 60]
        (Encoder.encode resChunked)).getD []).take
        (headSpecBytes resChunked dateX).length
      ≠ headSpecBytes resChunked dateX := by
  refine ⟨by decide, by decide, by decide⟩

/-- C6 (counterexample): `e6` is a reachable chunk-emission configuration
with 5 staged bytes pending; the next 5-byte pull fully drains the staged
chunk, yet the state stays in chunk emission and `chunk` is still present
(with its cursor at the end) instead of being discarded with the state
returned to chunk computation. -/
theorem claim_c6_counterexample :
    e6.state = .computedChunked ∧
    e6.chunk = some ⟨strBytes "1\r\nf\r\n" ++ List.replicate 56 0, 57⟩ ∧
    (fill dateX e6 (List.replicate 5 0)).1.state = .computedChunked ∧
    (fill dateX e6 (List.replicate 5 0)).1.chunk
      = some ⟨strBytes "1\r\nf\r\n" ++ List.replicate 56 0, 62⟩ ∧
    (fill dateX e6 (List.replicate 5 0)).2.2 = .ready 5 := by
  refine ⟨by decide, by decide, by decide, by decide, by decide⟩

/-- C10 (counterexample): `e6` is a reachable non-Start configuration
(chunk emission, 5 staged bytes pending), yet a fill with a zero-length
destination changes the state to chunk computation, abandoning the pending
staged bytes, instead of leaving the encoder unchanged. -/
theorem claim_c10_counterexample :
    e6.state = .computedChunked ∧
    (fill dateX e6 []).2.2 = .ready 0 ∧
    (fill dateX e6 []).1.state = .uncomputedChunked := by
  refine ⟨by decide, by decide, by decide⟩

/-- C7: the suspend discipline.  At the two places a pull polls the body
source (known-length body streaming and chunk computation), a source suspend
with zero bytes accumulated in this call suspends the pull itself, leaving
the destination untouched, while a suspend after some accumulated bytes
returns ready with exactly that count; and any pull that reports `Pending`
has written nothing into its destination. -/
theorem claim_c7_suspend_discipline :
    (∀ (e : Encoder) (buf : List Nat) (rest : List SourceStep),
      e.res.body.steps = .pend :: rest → e.bytes_read ≠ buf.length →
      encode_body e buf =
        ({ e with res := { e.res with body := ⟨e.res.body.rem, rest⟩ } }, buf,
         if e.bytes_read = 0 then .pending else .ready e.bytes_read)) ∧
    (∀ (e : Encoder) (buf : List Nat) (rest : List SourceStep),
      e.res.body.steps = .pend :: rest → buf.length - e.bytes_read ≠ 0 →
      encode_uncomputed_chunked e buf =
        ({ e with res := { e.res with body := ⟨e.res.body.rem, rest⟩ } }, buf,
         if e.bytes_read = 0 then .pending else .ready e.bytes_read)) ∧
    (∀ (date : List Nat) (e e1 : Encoder) (buf b1 : List Nat),
      fill date e buf = (e1, b1, .pending) → b1 = buf) := by
  refine ⟨fun e buf rest hsteps hne => ?_, fun e buf rest hsteps hne => ?_,
    fun date e e1 buf b1 h => ?_⟩
  · simp only [encode_body, encode_body_loop, Source.poll, hsteps, hne, if_false]
    split <;> rfl
  · simp only [encode_uncomputed_chunked, Source.poll, hsteps, hne, if_false]
    split <;> rfl
  · rw [fill] at h
    split at h
    · exact encode_head_pending _ _ _ _ rfl
        (by simpa [encode_start] using h)
    · exact encode_head_pending _ _ _ _ rfl h
    · exact (encode_body_loop_pending _ _ _ _ _ h).1
    · exact (encode_uncomputed_chunked_pending _ _ _ _ h).1
    · exact absurd (congrArg (fun t => t.2.2) h)
        (encode_computed_chunked_ne_pending _ _)
    · simp at h

/-- C7, applied: with the source suspending next, a Body-state pull and a
ComputingChunk-state pull with nothing accumulated suspend without touching
the destination, and the suspended pull hands the destination back
unchanged. -/
theorem claim_c7_witness :
    encode_body eBodyPend (List.replicate 3 0) =
      ({ eBodyPend with res := { eBodyPend.res with body := ⟨strBytes "xy", []⟩ } },
       List.replicate 3 0, .pending) ∧
    encode_uncomputed_chunked eUncPend (List.replicate 3 0) =
      ({ eUncPend with res := { eUncPend.res with body := ⟨strBytes "xy", []⟩ } },
       List.replicate 3 0, .pending) ∧
    (fill dateX eBodyPend (List.replicate 3 0)).2.1 = List.replicate 3 0 := by
  refine ⟨?_, ?_, ?_⟩
  · have h := claim_c7_suspend_discipline.1 eBodyPend (List.replicate 3 0) []
      (by decide) (by decide)
    simpa using h
  · have h := claim_c7_suspend_discipline.2.1 eUncPend (List.replicate 3 0) []
      (by decide) (by decide)
    simpa using h
  · exact claim_c7_suspend_discipline.2.2 dateX eBodyPend
      (fill dateX eBodyPend (List.replicate 3 0)).1 (List.replicate 3 0)
      (fill dateX eBodyPend (List.replicate 3 0)).2.1 (by decide)

/-- C4: for every fixed-length response with declared length L the observable
output of a run that reaches Done is the head followed by exactly
`min(L, bytes the source can produce)` raw body bytes — the prefix of the
source stream of that length; and a Body-state pull whose source reports
end-of-data before L bytes transitions to Done and returns the accumulated
count as a normal ready result, not an error. -/
theorem claim_c4_fixed_length_conservation :
    (∀ (res : Response) (date sizes out : List Nat) (L : Nat),
      res.contentLen = some L →
      runUntilDone date sizes (Encoder.encode res) = some out →
      out = headSpecBytes res date
        ++ res.body.rem.take (min L res.body.rem.length)) ∧
    (∀ (date : List Nat) (e : Encoder) (buf : List Nat),
      e.state = .body → e.res.body.rem = [] → e.res.body.steps = [] →
      e.body_bytes_read < e.body_len → buf ≠ [] →
      fill date e buf = ({ e with bytes_read := 0, state := .done }, buf, .ready 0)) := by
  constructor
  · intro res date sizes out L hL hrun
    have hInv : RunFixedInv date res L [] (Encoder.encode res) :=
      ⟨rfl, rfl, Or.inl ⟨rfl, rfl, rfl, rfl, rfl, rfl⟩⟩
    have h := runUntilDone_fixed date res L hL sizes (Encoder.encode res) [] out
      hInv hrun
    simpa using h
  · intro date e buf hst hrem hsteps hlt hbuf
    have hblen : ¬(0 = buf.length) := fun h =>
      hbuf (List.length_eq_zero.mp h.symm)
    simp only [fill, hst, encode_body, encode_body_loop, Source.poll, hsteps, hrem,
      hblen, if_false, List.length_nil, Nat.min_zero, List.take_nil, List.drop_nil,
      List.length_nil]
    simp only [writeAt_nil, Nat.add_zero]
    have hne : ¬(e.body_len = e.body_bytes_read) := by omega
    simp only [hne, if_false, if_true]
    rw [show (⟨[], []⟩ : Source) = e.res.body from by rw [← hrem, ← hsteps]]

/-- C4, applied: the short-body scenario (declared length 10, source ends
after "hell") reaches Done having emitted the head plus exactly the 4
available body bytes, and a Body-state pull at end-of-data finalizes to Done
with a ready result. -/
theorem claim_c4_witness :
    runUntilDone dateX [100] (Encoder.encode resFixed)
      = some (headSpecBytes resFixed dateX
        ++ resFixed.body.rem.take (min 10 resFixed.body.rem.length)) ∧
    fill dateX eShort [1]
      = ({ eShort with bytes_read := 0, state := .done }, [1], .ready 0) := by
  constructor
  · have h1 : runUntilDone dateX [100] (Encoder.encode resFixed)
        = some ((runUntilDone dateX [100] (Encoder.encode resFixed)).getD []) := by
      decide
    have h2 := claim_c4_fixed_length_conservation.1 resFixed dateX [100] _ 10 rfl h1
    rw [h1, h2]
  · exact claim_c4_fixed_length_conservation.2 dateX eShort [1] rfl rfl rfl
      (by decide) (by decide)

/-- C5: the head synthesized on the first pull is exactly the status line,
then the content-length line when a known length was supplied and the
transfer-encoding line otherwise, then the date line, then one line per
header value in iteration order, then the blank terminator; and the encoder
commits to exactly one framing mode: with a known length it never enters a
chunked state (and never stages a chunk), without one it never enters the
fixed-length Body state. -/
theorem claim_c5_head_serialization :
    (∀ (res : Response) (date buf : List Nat),
      (fill date (Encoder.encode res) buf).1.head = headSpecBytes res date) ∧
    (∀ (res : Response) (date sizes : List Nat) (L : Nat),
      res.contentLen = some L →
      (iterFill date sizes (Encoder.encode res)).chunk = none ∧
      (iterFill date sizes (Encoder.encode res)).state ≠ .uncomputedChunked ∧
      (iterFill date sizes (Encoder.encode res)).state ≠ .computedChunked) ∧
    (∀ (res : Response) (date sizes : List Nat),
      res.contentLen = none →
      (iterFill date sizes (Encoder.encode res)).state ≠ .body) := by
  refine ⟨fun res date buf => ?_, fun res date sizes L hL => ?_, fun res date sizes hL => ?_⟩
  · simp only [fill, Encoder.encode, encode_start]
    rw [(encode_head_frame _ _).1]
    cases hc : res.contentLen <;> simp [headSpecBytes, hc, List.append_assoc]
  · have h := iterFill_fixedInv date sizes (Encoder.encode res) L ⟨hL, rfl, Or.inl rfl⟩
    refine ⟨h.2.1, ?_, ?_⟩ <;> rcases h.2.2 with hs | hs | hs | hs <;> simp [hs]
  · exact (iterFill_chunkedInv date sizes (Encoder.encode res)
      ⟨hL, by simp [Encoder.encode]⟩).2

/-- C5, applied: a fixed-length run stages no chunk and sits outside the
chunked states, and a chunked run sits outside the Body state. -/
theorem claim_c5_witness :
    ((iterFill dateX [3, 3] (Encoder.encode resFixed)).chunk = none ∧
      (iterFill dateX [3, 3] (Encoder.encode resFixed)).state ≠ .uncomputedChunked ∧
      (iterFill dateX [3, 3] (Encoder.encode resFixed)).state ≠ .computedChunked) ∧
    (iterFill dateX [3] (Encoder.encode resChunked)).state ≠ .body :=
  ⟨claim_c5_head_serialization.2.1 resFixed dateX [3, 3] 10 rfl,
   claim_c5_head_serialization.2.2 resChunked dateX [3] rfl⟩

/-- C6 (amended): a pull that starts in the chunk-emission state copies bytes
from the staged chunk's cursor into the destination starting at offset 0,
bounded by the destination's full length and the chunk's remaining bytes; the
staged chunk is never discarded, only its cursor advances; and the state
leaves chunk emission only on a pull whose cursor read returns zero bytes,
becoming ComputingChunk, or Done when `is_last` is set. -/
theorem claim_c6_amended (date : List Nat) (e : Encoder) (c : Cursor) (buf : List Nat)
    (hs : e.state = .computedChunked) (hc : e.chunk = some c) :
    fill date e buf =
      ({ e with bytes_read := min (c.data.length - c.pos) buf.length,
                chunk := some ⟨c.data, c.pos + min (c.data.length - c.pos) buf.length⟩,
                state := if min (c.data.length - c.pos) buf.length = 0 then
                    (if e.is_last then .done else .uncomputedChunked)
                  else .computedChunked },
       writeAt buf 0 ((c.data.drop c.pos).take (min (c.data.length - c.pos) buf.length)),
       .ready (min (c.data.length - c.pos) buf.length)) := by
  simp only [fill, hs, encode_computed_chunked, hc, Cursor.read]
  simp [List.length_take, List.length_drop, Nat.min_assoc, Nat.min_self]
  constructor
  · split_ifs <;> rfl
  · split_ifs <;> rfl

/-- C6 amended, applied: draining the remaining 5 staged bytes of `e6` into a
5-byte destination keeps the chunk (cursor at the end) and the state. -/
theorem claim_c6_amended_witness :
    fill dateX e6 (List.replicate 5 0) =
      ({ e6 with bytes_read := 5,
                 chunk := some ⟨strBytes "1\r\nf\r\n" ++ List.replicate 56 0, 57 + 5⟩,
                 state := .computedChunked },
       writeAt (List.replicate 5 0) 0
         (((strBytes "1\r\nf\r\n" ++ List.replicate 56 0).drop 57).take 5),
       .ready 5) := by
  have h := claim_c6_amended dateX e6
      ⟨strBytes "1\r\nf\r\n" ++ List.replicate 56 0, 57⟩ (List.replicate 5 0)
      (by decide) (by decide)
  simpa using h

/-- C10 (amended): a fill with a zero-length destination in the Head state
with head bytes still pending, or in the Body, ComputingChunk, or Done
states, returns ready with zero bytes without polling the body source and
changes nothing but the per-call counter; the chunk-emission state is the
exception (see the counterexample). -/
theorem claim_c10_amended (date : List Nat) (e : Encoder) :
    (e.state = .head → e.head_bytes_read < e.head.length →
      fill date e [] = ({ e with bytes_read := 0 }, [], .ready 0)) ∧
    (e.state = .body →
      fill date e [] = ({ e with bytes_read := 0 }, [], .ready 0)) ∧
    (e.state = .uncomputedChunked →
      fill date e [] = ({ e with bytes_read := 0 }, [], .ready 0)) ∧
    (e.state = .done →
      fill date e [] = ({ e with bytes_read := 0 }, [], .ready 0)) := by
  refine ⟨fun hs hlt => ?_, fun hs => ?_, fun hs => ?_, fun hs => ?_⟩
  · simp only [fill, hs, encode_head]
    simp [writeAt, Nat.ne_of_lt hlt]
  · simp only [fill, hs, encode_body, encode_body_loop]
    simp
  · simp only [fill, hs, encode_uncomputed_chunked]
    simp
  · simp [fill, hs]

/-- C10 amended, applied at a concrete Body-state configuration. -/
theorem claim_c10_amended_witness :
    fill dateX { Encoder.encode resFixed with state := .body } [] =
      ({ Encoder.encode resFixed with state := .body, bytes_read := 0 }, [], .ready 0) :=
  (claim_c10_amended dateX { Encoder.encode resFixed with state := .body }).2.1 rfl

/-- C8 (amended): once the state is Done, every fill call returns ready with
zero bytes, never suspends, and mutates no field other than `bytes_read`,
which `poll_read` unconditionally resets to zero on entry. -/
theorem claim_c8_amended (date : List Nat) (e : Encoder) (buf : List Nat)
    (h : e.state = .done) :
    fill date e buf = ({ e with bytes_read := 0 }, buf, .ready 0) := by
  simp [fill, h]

/-- C8 amended, applied at the reachable terminal configuration `e8`. -/
theorem claim_c8_amended_witness :
    fill dateX e8 (List.replicate 4 0) =
      ({ e8 with bytes_read := 0 }, List.replicate 4 0, .ready 0) :=
  claim_c8_amended dateX e8 (List.replicate 4 0) (by decide)

/-- C8 (counterexample): `e8` is a reachable terminal configuration with
`bytes_read = 52`; the next fill returns ready 0 but does mutate a field,
resetting `bytes_read` to zero, so "mutates no field" fails as stated. -/
theorem claim_c8_counterexample :
    e8.state = .done ∧
    e8.bytes_read = 52 ∧
    (fill dateX e8 (List.replicate 4 0)).2.2 = .ready 0 ∧
    (fill dateX e8 (List.replicate 4 0)).1 ≠ e8 := by
  refine ⟨by decide, by decide, by decide, by decide⟩

end AH1
